import Mathlib

/-!
Verification development for the `update_scores` edge function.

The repository contains two near-duplicate handler variants:
* `src/supabase/functions/update_scores/index.ts` — the "strict" variant:
  cryptographic verification is enforced, there is no `auth_date` check,
  and the success response is a bare acknowledgment `{ ok: true }`.
* `src/unnamed/part_000` — the "hybrid" variant: the `auth_date` freshness
  check is enforced, the cryptographic check is computed but only logged,
  and the success response carries the post-write row (`me`).

Strings are modelled as Lean `String`/`List Char` (JavaScript strings are
sequences of UTF-16 units; all inputs of interest here live in the basic
multilingual plane, where per-character comparison by code point coincides
with JavaScript's per-code-unit comparison).  HMAC-SHA256 (`crypto.subtle`)
is an external primitive and is abstracted as a function parameter
`hmac : List Nat → List Nat → List Nat` on key bytes and message bytes.
`JSON.parse` of the embedded `user` object is likewise abstracted as a
parameter `parseUserId : String → Option Int` (the handler only uses
`user?.id`).  Everything else is translated from the source.
-/

/-- Hex digit value of a character, `none` when not a hex digit. -/
def hexDigitVal (c : Char) : Option Nat :=
  let v := c.toNat
  if 48 ≤ v ∧ v ≤ 57 then some (v - 48)
  else if 97 ≤ v ∧ v ≤ 102 then some (v - 87)
  else if 65 ≤ v ∧ v ≤ 70 then some (v - 55)
  else none

/-- Lower-case hex digit for a value `< 16` (as produced by
`b.toString(16)` in the source's `toHex`). -/
def hexDigitChar (n : Nat) : Char :=
  if n < 10 then Char.ofNat (48 + n) else Char.ofNat (87 + n)

/-- `b.toString(16).padStart(2, "0")` for a byte value. -/
def byteHex (b : Nat) : List Char :=
  [hexDigitChar (b / 16 % 16), hexDigitChar (b % 16)]

/-- The source's `toHex`: concatenate two lower-case hex digits per byte. -/
def hexOfBytes (bs : List Nat) : List Char :=
  (bs.map byteHex).flatten

/-- UTF-8 encoding of one code point (`TextEncoder` behaviour). -/
def utf8EncodeCh (c : Char) : List Nat :=
  let v := c.toNat
  if v < 0x80 then [v]
  else if v < 0x800 then [0xC0 + v / 64, 0x80 + v % 64]
  else if v < 0x10000 then [0xE0 + v / 4096, 0x80 + v / 64 % 64, 0x80 + v % 64]
  else [0xF0 + v / 262144, 0x80 + v / 4096 % 64, 0x80 + v / 64 % 64, 0x80 + v % 64]

/-- UTF-8 encoding of a character sequence (`new TextEncoder().encode`). -/
def utf8Enc (cs : List Char) : List Nat :=
  (cs.map utf8EncodeCh).flatten

/-- Length of a UTF-8 sequence from its lead byte; `none` for a byte that
cannot start a sequence (continuation bytes, `0xF8`..). -/
def utf8SeqLen (b : Nat) : Option Nat :=
  if b < 0x80 then some 1
  else if 0xC0 ≤ b ∧ b < 0xE0 then some 2
  else if 0xE0 ≤ b ∧ b < 0xF0 then some 3
  else if 0xF0 ≤ b ∧ b < 0xF8 then some 4
  else none

/-- Read `n` continuation bytes, each written as a `%`-escape, off the input;
returns the bytes and the remaining input. -/
def takeEscBytes : Nat → List Char → Option (List Nat × List Char)
  | 0, cs => some ([], cs)
  | n + 1, cs =>
    match cs with
    | c :: a :: b :: rest =>
      if c = '%' then
        match hexDigitVal a, hexDigitVal b with
        | some hv, some lv =>
          let byte := 16 * hv + lv
          if 0x80 ≤ byte ∧ byte < 0xC0 then
            (takeEscBytes n rest).map (fun p => (byte :: p.1, p.2))
          else none
        | _, _ => none
      else none
    | _ => none

/-- Assemble a code point from a lead byte and its continuation bytes,
validating ranges (no overlong form, no surrogate, `≤ 0x10FFFF`). -/
def utf8Assemble (len : Nat) (lead : Nat) (conts : List Nat) : Option Nat :=
  let init : Nat :=
    if len = 2 then lead - 0xC0 else if len = 3 then lead - 0xE0 else lead - 0xF0
  let v := conts.foldl (fun acc b => acc * 64 + (b - 0x80)) init
  if len = 2 then (if 0x80 ≤ v then some v else none)
  else if len = 3 then
    (if 0x800 ≤ v ∧ ¬(0xD800 ≤ v ∧ v ≤ 0xDFFF) then some v else none)
  else (if 0x10000 ≤ v ∧ v ≤ 0x10FFFF then some v else none)

/-- Fuel-bounded core of `decodeURIComponent`: `%`-escapes decode as
UTF-8 byte sequences, any malformed escape or invalid sequence throws
(modelled as `none`).  Each step consumes at least one character, so fuel
equal to the input length always suffices. -/
def decStrictGo : Nat → List Char → Option (List Char)
  | _, [] => some []
  | 0, _ :: _ => none
  | fuel + 1, c :: cs =>
    if c = '%' then
      match cs with
      | a :: b :: cs0 =>
        match hexDigitVal a, hexDigitVal b with
        | some hv, some lv =>
          let byte := 16 * hv + lv
          if byte < 0x80 then
            (decStrictGo fuel cs0).map (fun rest => Char.ofNat byte :: rest)
          else
            match utf8SeqLen byte with
            | none => none
            | some n =>
              match takeEscBytes (n - 1) cs0 with
              | none => none
              | some (conts, cs') =>
                match utf8Assemble n byte conts with
                | none => none
                | some v =>
                  (decStrictGo fuel cs').map (fun rest => Char.ofNat v :: rest)
        | _, _ => none
      | _ => none
    else (decStrictGo fuel cs).map (fun rest => c :: rest)

/-- `decodeURIComponent` (a thrown `URIError` is `none`). -/
def decPercentStrict (cs : List Char) : Option (List Char) :=
  decStrictGo cs.length cs

/-- Fuel-bounded core of WHATWG percent-decoding with replacement, as
performed by `URLSearchParams`: a malformed escape is kept literally, an
invalid byte sequence yields U+FFFD (replacement granularity is
approximated; no claim in this development exercises that path). -/
def decLossyGo : Nat → List Char → List Char
  | _, [] => []
  | 0, cs => cs
  | fuel + 1, c :: cs =>
    if c = '%' then
      match cs with
      | a :: b :: cs0 =>
        match hexDigitVal a, hexDigitVal b with
        | some hv, some lv =>
          let byte := 16 * hv + lv
          if byte < 0x80 then Char.ofNat byte :: decLossyGo fuel cs0
          else
            match utf8SeqLen byte with
            | none => Char.ofNat 0xFFFD :: decLossyGo fuel cs0
            | some n =>
              match takeEscBytes (n - 1) cs0 with
              | none => Char.ofNat 0xFFFD :: decLossyGo fuel cs0
              | some (conts, cs') =>
                match utf8Assemble n byte conts with
                | none => Char.ofNat 0xFFFD :: decLossyGo fuel cs'
                | some v => Char.ofNat v :: decLossyGo fuel cs'
        | _, _ => '%' :: decLossyGo fuel cs
      | _ => '%' :: decLossyGo fuel cs
    else c :: decLossyGo fuel cs

/-- `URLSearchParams` percent-decoding. -/
def decPercentLossy (cs : List Char) : List Char :=
  decLossyGo cs.length cs

/-- JavaScript `String.prototype.split` with a one-character separator:
`"" → [""]`, empty segments are kept. -/
def splitOnCh (sep : Char) : List Char → List (List Char)
  | [] => [[]]
  | c :: rest =>
    let r := splitOnCh sep rest
    if c = sep then [] :: r
    else
      match r with
      | h :: t => (c :: h) :: t
      | [] => [[c]]

/-- Split a `key=value` part at the first `=`; no `=` gives an empty value.
This is both what `URLSearchParams` does and what the manual
`const [key, ...valueParts] = part.split('='); valueParts.join('=')` does. -/
def splitFirstEq : List Char → List Char × List Char
  | [] => ([], [])
  | c :: rest =>
    if c = '=' then ([], rest)
    else
      let p := splitFirstEq rest
      (c :: p.1, p.2)

/-- `URLSearchParams` value decoding: `+` becomes a space, then
percent-decoding with replacement. -/
def uspDecode (cs : List Char) : List Char :=
  decPercentLossy (cs.map (fun c => if c = '+' then ' ' else c))

/-- `new URLSearchParams(s)` before decoding: strip one leading `?`,
split on `&`, drop empty segments, split each segment at the first `=`. -/
def uspRawEntries (cs : List Char) : List (List Char × List Char) :=
  let cs := match cs with
    | [] => []
    | c :: rest => if c = '?' then rest else c :: rest
  ((splitOnCh '&' cs).filter (fun p => !p.isEmpty)).map splitFirstEq

/-- The decoded entry list of `new URLSearchParams(s)`, in input order
(both name and value are decoded). -/
def uspEntries (cs : List Char) : List (List Char × List Char) :=
  (uspRawEntries cs).map (fun p => (uspDecode p.1, uspDecode p.2))

/-- `params.get(k)`: value of the first entry named `k`. -/
def uspGet (es : List (List Char × List Char)) (k : List Char) :
    Option (List Char) :=
  (es.find? (fun p => p.1 == k)).map (fun p => p.2)

/-- Stable insertion of `a` into a sorted list: `a` passes elements
strictly below it and lands before every element tied with it. -/
def insertStable (le : α → α → Bool) (a : α) : List α → List α
  | [] => [a]
  | b :: bs =>
    if le b a && !le a b then b :: insertStable le a bs
    else a :: b :: bs

/-- A stable comparison sort, modelling `Array.prototype.sort` (required
stable by the language specification). -/
def sortJs (le : α → α → Bool) : List α → List α
  | [] => []
  | a :: as => insertStable le a (sortJs le as)

/-- Code-unit lexicographic comparison of two character sequences, the
order used by JavaScript's default `Array.prototype.sort` on strings. -/
def lcLe : List Char → List Char → Bool
  | [], _ => true
  | _ :: _, [] => false
  | a :: as, b :: bs =>
    if a.toNat < b.toNat then true
    else if b.toNat < a.toNat then false
    else lcLe as bs

/-- The string JavaScript compares when default-sorting a `[k, v]` entry
array: `String([k, v])` is `k + "," + v`. -/
def entryKeyStr (p : List Char × List Char) : List Char :=
  p.1 ++ ',' :: p.2

/-- Default-sort order of `Array.from(params.entries()).sort()`. -/
def entryLe (p q : List Char × List Char) : Bool :=
  lcLe (entryKeyStr p) (entryKeyStr q)

/-- `pairs.join("\n")`. -/
def joinNL : List (List Char) → List Char
  | [] => []
  | [l] => l
  | l :: rest => l ++ '\n' :: joinNL rest

/-- One `key=value` line of the data-check string. -/
def toLine (p : List Char × List Char) : List Char :=
  p.1 ++ '=' :: p.2

/-- Data-check string of the `URLSearchParams`-based verifier
(`index.ts`): delete `hash` and `signature`, default-sort the entries,
join `key=value` lines with newlines. -/
def dataCheckStringUsp (initData : List Char) : List Char :=
  let es := (uspEntries initData).filter
    (fun p => p.1 != "hash".data && p.1 != "signature".data)
  joinNL ((sortJs entryLe es).map toLine)

/-- The claimed signature in the `URLSearchParams`-based verifier:
`params.get("hash") || ""`. -/
def uspHash (initData : List Char) : List Char :=
  (uspGet (uspEntries initData) "hash".data).getD []

/-- State built by the manual parsing loop of `part_000`'s verifier. -/
structure ManualParse where
  hash : List Char
  entries : List (List Char × List Char)
deriving DecidableEq, Repr

/-- Plain-object assignment `params[key] = value`: overwrite in place if
the key exists, otherwise append. -/
def jsObjInsert (l : List (List Char × List Char)) (k v : List Char) :
    List (List Char × List Char) :=
  if l.any (fun p => p.1 == k) then
    l.map (fun p => if p.1 == k then (k, v) else p)
  else l ++ [(k, v)]

/-- One iteration of the manual parsing loop of `part_000`: raw keys,
`hash` keeps its raw value (last occurrence wins), `signature` is skipped,
all other values go through `decodeURIComponent` (which may throw,
modelled as `none`, aborting the whole parse). -/
def manualStep (acc : Option ManualParse) (part : List Char) :
    Option ManualParse :=
  match acc with
  | none => none
  | some st =>
    let p := splitFirstEq part
    if p.1 == "hash".data then some { st with hash := p.2 }
    else if p.1 == "signature".data then some st
    else
      match decPercentStrict p.2 with
      | none => none
      | some dv => some { st with entries := jsObjInsert st.entries p.1 dv }

/-- The manual parsing loop of `part_000` over the `&`-split parts. -/
def manualParse (initData : List Char) : Option ManualParse :=
  (splitOnCh '&' initData).foldl manualStep (some ⟨[], []⟩)

/-- Data-check string of a parsed manual state: `Object.keys(params).sort()`,
then `k=params[k]` lines joined with newlines. -/
def manualCanonOf (st : ManualParse) : List Char :=
  let keys := sortJs lcLe (st.entries.map (fun p => p.1))
  joinNL (keys.map (fun k =>
    k ++ '=' :: (((st.entries.find? (fun p => p.1 == k)).map (fun p => p.2)).getD [])))

/-- Data-check string of the manual verifier (`part_000`); `none` when
`decodeURIComponent` throws. -/
def dataCheckStringManual (initData : List Char) : Option (List Char) :=
  (manualParse initData).map manualCanonOf

/-- The two-stage HMAC: `secretKey = HMAC(key = botToken, msg = "WebAppData")`,
`calcHash = hex(HMAC(key = secretKey, msg = dataCheckString))`.  `hmac` is
the abstracted HMAC-SHA256 primitive on (key bytes, message bytes). -/
def calcHashHex (hmac : List Nat → List Nat → List Nat)
    (botToken dataCheckString : List Char) : List Char :=
  let secretKey := hmac (utf8Enc botToken) (utf8Enc "WebAppData".data)
  hexOfBytes (hmac secretKey (utf8Enc dataCheckString))

/-- `verifyTelegramInitData` of `index.ts` (URLSearchParams variant). -/
def verifyUsp (hmac : List Nat → List Nat → List Nat)
    (initData botToken : List Char) : Bool :=
  calcHashHex hmac botToken (dataCheckStringUsp initData) == uspHash initData

/-- `verifyTelegramInitData` of `part_000` (manual-parse variant); `none`
models a thrown `URIError` escaping the function. -/
def verifyManual (hmac : List Nat → List Nat → List Nat)
    (initData botToken : List Char) : Option Bool :=
  (manualParse initData).map (fun st =>
    calcHashHex hmac botToken (manualCanonOf st) == st.hash)

/-- A persisted `leaderboard` row (columns selected by the handlers). -/
structure Row where
  telegram_id : Int
  username : Option String
  max_score : Int
  total_score : Int
  updated_at : Int
deriving DecidableEq, Repr

/-- The record passed to `upsert`; `username` is `none` when the handler
does not include the column in the payload. -/
structure UpsertRecord where
  telegram_id : Int
  max_score : Int
  total_score : Int
  updated_at : Int
  username : Option String
deriving DecidableEq, Repr

/-- Result of `maybeSingle()`: a data part and an error part.  The handlers
destructure only `data`, so a read error leaves `data` as `null`. -/
structure StoreResp where
  data : Option Row
  error : Option String
deriving DecidableEq, Repr

/-- Result of `upsert(...).select(...)`: an optional row array and an
optional error. -/
structure UpsertResp where
  data : Option (List Row)
  error : Option String
deriving DecidableEq, Repr

/-- The store collaborator as seen by one request: the response to the
initial point read, the response to the upsert (as a function of the
upserted record), and the response to the follow-up point read. -/
structure StoreBehavior where
  readResp : StoreResp
  upsertResp : UpsertRecord → UpsertResp
  refetchResp : StoreResp

/-- Environment configuration (`Deno.env.get`). -/
structure Env where
  supabaseUrl : Option String
  serviceRole : Option String
  botToken : Option String
deriving DecidableEq, Repr

/-- The request body after `await req.json().catch(() => ({}))` and
destructuring; `body = none` models a non-JSON body (the catch turns it
into `{}`, so every field reads as `undefined`).  A `displayName` of
`none` covers both an absent field and a non-string value (the handler's
`typeof` check maps both to `""`). -/
structure ReqBody where
  initData : Option String
  runScore : Option Int
  totalScore : Option Int
  displayName : Option String
deriving DecidableEq, Repr

/-- An incoming request. -/
structure Req where
  method : String
  body : Option ReqBody
deriving DecidableEq, Repr

/-- Response payloads the handlers can produce. -/
inductive RespBody where
  /-- Plain `"ok"` text answered to an OPTIONS preflight. -/
  | optionsOk : RespBody
  /-- `{ ok: true }` — the bare acknowledgment of `index.ts`. -/
  | ack : RespBody
  /-- `{ ok: true, me }` — the success payload of `part_000`. -/
  | okMe (me : Option Row) : RespBody
  /-- `{ error: msg }`. -/
  | err (msg : String) : RespBody
deriving DecidableEq, Repr

/-- An HTTP response: status code and payload. -/
structure Resp where
  status : Nat
  body : RespBody
deriving DecidableEq, Repr

/-- JavaScript whitespace for `String.prototype.trim`. -/
def isJsWs (c : Char) : Bool :=
  c.toNat = 32 || c.toNat = 9 || c.toNat = 10 || c.toNat = 11 ||
  c.toNat = 12 || c.toNat = 13 || c.toNat = 160 || c.toNat = 0x2028 ||
  c.toNat = 0x2029 || c.toNat = 0xFEFF

/-- `displayName.trim()`. -/
def jsTrim (s : String) : String :=
  ⟨((s.data.dropWhile isJsWs).reverse.dropWhile isJsWs).reverse⟩

/-- One character of the name pattern `[A-Za-zА-Яа-яЁё0-9_-]`. -/
def isNameChar (c : Char) : Bool :=
  let v := c.toNat
  if (65 ≤ v ∧ v ≤ 90) ∨ (97 ≤ v ∧ v ≤ 122) ∨
     (1040 ≤ v ∧ v ≤ 1071) ∨ (1072 ≤ v ∧ v ≤ 1103) ∨ v = 1025 ∨ v = 1105 ∨
     (48 ≤ v ∧ v ≤ 57) ∨ v = 95 ∨ v = 45
  then true else false

/-- `/^[A-Za-zА-Яа-яЁё0-9_-]{4,15}$/.test(name)`. -/
def nameOkTest (name : String) : Bool :=
  decide (4 ≤ name.length) && decide (name.length ≤ 15) &&
  name.data.all isNameChar

/-- Leading digits of a character sequence as a number; `none` when the
sequence does not start with a digit (`parseInt` returns `NaN`). -/
def leadingDigits (cs : List Char) : Option Nat :=
  let ds := cs.takeWhile (fun c => c.isDigit)
  if ds.isEmpty then none
  else some (ds.foldl (fun a c => 10 * a + (c.toNat - 48)) 0)

/-- `parseInt(s, 10)`: skip leading whitespace, optional sign, leading
digits; `none` models `NaN`. -/
def jsParseInt (s : String) : Option Int :=
  let cs := s.data.dropWhile isJsWs
  match cs with
  | '-' :: rest => (leadingDigits rest).map (fun n => -(n : Int))
  | '+' :: rest => (leadingDigits rest).map (fun n => (n : Int))
  | _ => (leadingDigits cs).map (fun n => (n : Int))

/-- `part_000`'s freshness gate: `authDate` is
`parseInt(urlParams.get('auth_date') || '0', 10)`, and the request is
rejected when `age > 86400 || age < 0` with `age = now - authDate`.
A `NaN` `authDate` passes (both comparisons are false). -/
def hybridStale (now : Int) (initData : String) : Bool :=
  let adStr :=
    match uspGet (uspEntries initData.data) "auth_date".data with
    | none => "0".data
    | some [] => "0".data
    | some v => v
  match jsParseInt ⟨adStr⟩ with
  | none => false
  | some authDate =>
    let age := now - authDate
    decide (age > 86400) || decide (age < 0)

/-- `params.get("user") || ""` followed by `JSON.parse` and `user?.id`:
`telegramId` as an optional integer.  `parseUserId` abstracts
`JSON.parse` plus the `.id` projection; an unparsable string or an object
without an `id` is `none`. -/
def extractTelegramId (parseUserId : String → Option Int)
    (initData : String) : Option Int :=
  let userStr := ((uspGet (uspEntries initData.data) "user".data).getD [])
  if userStr.isEmpty then none
  else parseUserId ⟨userStr⟩

/-- The shared reconciliation block (identical in both variants): read the
current maxima (`?? 0`), take `Math.max` against the claimed scores
(`Number(x ?? 0)`), validate the display name, and build the upsert
payload (`username` included only when the name is valid). -/
def buildRecord (cur : Option Row) (telegramId : Int)
    (runScore totalScore : Option Int) (displayName : Option String)
    (now : Int) : UpsertRecord :=
  let currentMax := (cur.map (fun r => r.max_score)).getD 0
  let currentTotal := (cur.map (fun r => r.total_score)).getD 0
  let nextMax := max currentMax (runScore.getD 0)
  let nextTotal := max currentTotal (totalScore.getD 0)
  let name := jsTrim ((displayName.getD ""))
  let nameOk := nameOkTest name
  { telegram_id := telegramId
    max_score := nextMax
    total_score := nextTotal
    updated_at := now
    username := if nameOk then some name else none }

/-- `!x` for an optional string (`undefined` and `""` are falsy). -/
def jsFalsyStr : Option String → Bool
  | none => true
  | some s => s == ""

/-- The handler of `src/supabase/functions/update_scores/index.ts`
(strict variant): OPTIONS short-circuit, missing-initData check, env
check, blocking cryptographic verification, user extraction, read,
reconcile, upsert, bare `{ ok: true }` acknowledgment. -/
def handleIndex (hmac : List Nat → List Nat → List Nat)
    (parseUserId : String → Option Int) (env : Env) (now : Int)
    (store : StoreBehavior) (req : Req) : Resp :=
  if req.method == "OPTIONS" then ⟨200, .optionsOk⟩
  else
    let body := req.body.getD ⟨none, none, none, none⟩
    if jsFalsyStr body.initData then ⟨400, .err "Missing initData"⟩
    else
      let initData := body.initData.getD ""
      match env.supabaseUrl, env.serviceRole, env.botToken with
      | some _, some _, some botToken =>
        let ok := verifyUsp hmac initData.data botToken.data
        if !ok then ⟨401, .err "Invalid Telegram signature"⟩
        else
          match extractTelegramId parseUserId initData with
          | none => ⟨400, .err "No Telegram user"⟩
          | some telegramId =>
            if telegramId == 0 then ⟨400, .err "No Telegram user"⟩
            else
              let cur := store.readResp.data
              let record := buildRecord cur telegramId body.runScore
                body.totalScore body.displayName now
              let ur := store.upsertResp record
              match ur.error with
              | some msg => ⟨400, .err msg⟩
              | none => ⟨200, .ack⟩
      | _, _, _ => ⟨500, .err "Server misconfigured"⟩

/-- The row for this user among the rows returned by the upsert's
`select(...)`: `Array.isArray(upsertData) ? upsertData.find(...) : upsertData`
(a `null` data part yields `null`). -/
def upsertReturnedRow (ur : UpsertResp) (telegramId : Int) : Option Row :=
  match ur.data with
  | some rows => rows.find? (fun r => r.telegram_id == telegramId)
  | none => none

/-- The handler of `src/unnamed/part_000` (hybrid variant): the
`auth_date` freshness gate is blocking, the cryptographic check is
computed but its boolean is ignored (a thrown `URIError` still escapes to
the outer catch, surfacing as a 500), and the success response carries
the freshest row for the user (`me`), refetched when the upsert's
returned rows do not contain it. -/
def handleHybrid (hmac : List Nat → List Nat → List Nat)
    (parseUserId : String → Option Int) (env : Env) (now : Int)
    (store : StoreBehavior) (req : Req) : Resp :=
  if req.method == "OPTIONS" then ⟨200, .optionsOk⟩
  else
    let body := req.body.getD ⟨none, none, none, none⟩
    if jsFalsyStr body.initData then ⟨400, .err "Missing initData"⟩
    else
      let initData := body.initData.getD ""
      match env.supabaseUrl, env.serviceRole, env.botToken with
      | some _, some _, some botToken =>
        if hybridStale now initData then
          ⟨401, .err "Expired or invalid auth_date"⟩
        else
          match verifyManual hmac initData.data botToken.data with
          | none => ⟨500, .err "URIError: URI malformed"⟩
          | some _cryptoOk =>
            match extractTelegramId parseUserId initData with
            | none => ⟨400, .err "No Telegram user"⟩
            | some telegramId =>
              if telegramId == 0 then ⟨400, .err "No Telegram user"⟩
              else
                let cur := store.readResp.data
                let record := buildRecord cur telegramId body.runScore
                  body.totalScore body.displayName now
                let ur := store.upsertResp record
                match ur.error with
                | some msg => ⟨400, .err msg⟩
                | none =>
                  let me :=
                    match upsertReturnedRow ur telegramId with
                    | some r => some r
                    | none => store.refetchResp.data
                  ⟨200, .okMe me⟩
      | _, _, _ => ⟨500, .err "Server misconfigured"⟩

/-- The store's upsert with `onConflict: "telegram_id"`: replace the
conflicting row, updating exactly the supplied columns (a payload without
`username` leaves the stored `username` unchanged; an insert without it
leaves the column null). -/
def applyUpsert (cur : Option Row) (rec : UpsertRecord) : Row :=
  { telegram_id := rec.telegram_id
    max_score := rec.max_score
    total_score := rec.total_score
    updated_at := rec.updated_at
    username :=
      match rec.username with
      | some n => some n
      | none => (cur.map (fun r => r.username)).getD none }

/-- One sequential reconciliation for a single identity: the row state
after the handler's read–merge–upsert block runs against the current
stored row. -/
def reconcileStep (cur : Option Row) (telegramId : Int)
    (runScore totalScore : Option Int) (displayName : Option String)
    (now : Int) : Row :=
  applyUpsert cur (buildRecord cur telegramId runScore totalScore displayName now)

/-- The client-supplied arguments of one reconciliation call. -/
structure RunArgs where
  runScore : Option Int
  totalScore : Option Int
  displayName : Option String
  now : Int
deriving DecidableEq, Repr

/-- Sequential reconciliations for one identity starting from row `r`. -/
def reconcileFold (telegramId : Int) (r : Row) (args : List RunArgs) : Row :=
  args.foldl
    (fun cur a =>
      reconcileStep (some cur) telegramId a.runScore a.totalScore a.displayName a.now)
    r

theorem max_absorb_clamp (a b : Int) (h : 0 ≤ a) : max a b = max a (max b 0) := by
  rcases le_total b 0 with h' | h'
  · rw [max_eq_right h', max_eq_left h, max_eq_left (h'.trans h)]
  · rw [max_eq_left h']

/-- C6: for sequential reconciliations of one identity starting from a
record with non-negative scores, the stored `max_score` and `total_score`
never decrease at any step, and the final `max_score` is the maximum of
the initial value and all claimed run scores clamped at 0. -/
theorem reconcile_monotone_final_best (telegramId : Int) (r0 : Row)
    (args : List RunArgs) (hmax : 0 ≤ r0.max_score) :
    (∀ (cur : Row) (a : RunArgs),
      cur.max_score ≤ (reconcileStep (some cur) telegramId a.runScore
        a.totalScore a.displayName a.now).max_score ∧
      cur.total_score ≤ (reconcileStep (some cur) telegramId a.runScore
        a.totalScore a.displayName a.now).total_score) ∧
    (reconcileFold telegramId r0 args).max_score =
      args.foldl (fun m a => max m (max (a.runScore.getD 0) 0)) r0.max_score := by
  constructor
  · intro cur a
    exact ⟨le_max_left _ _, le_max_left _ _⟩
  · induction args generalizing r0 with
    | nil => rfl
    | cons a args ih =>
      have step :
          (reconcileStep (some r0) telegramId a.runScore a.totalScore
            a.displayName a.now).max_score = max r0.max_score (a.runScore.getD 0) := rfl
      have h1 : 0 ≤ max r0.max_score (a.runScore.getD 0) :=
        le_trans hmax (le_max_left _ _)
      calc (reconcileFold telegramId r0 (a :: args)).max_score
          = (reconcileFold telegramId
              (reconcileStep (some r0) telegramId a.runScore a.totalScore
                a.displayName a.now) args).max_score := rfl
        _ = args.foldl (fun m a => max m (max (a.runScore.getD 0) 0))
              (max r0.max_score (a.runScore.getD 0)) := by
            rw [ih _ (by rw [step]; exact h1), step]
        _ = args.foldl (fun m a => max m (max (a.runScore.getD 0) 0))
              (max r0.max_score (max (a.runScore.getD 0) 0)) := by
            rw [max_absorb_clamp _ _ hmax]

theorem reconcile_monotone_final_best_witness :
    (0 ≤ (3 : Int)) ∧
    (reconcileFold 42 ⟨42, none, 3, 3, 0⟩
      [⟨some 10, some 10, none, 1⟩, ⟨some 5, some 20, none, 2⟩]).max_score =
      [(⟨some 10, some 10, none, 1⟩ : RunArgs), ⟨some 5, some 20, none, 2⟩].foldl
        (fun m a => max m (max (a.runScore.getD 0) 0)) 3 :=
  ⟨by decide,
    (reconcile_monotone_final_best 42 ⟨42, none, 3, 3, 0⟩
      [⟨some 10, some 10, none, 1⟩, ⟨some 5, some 20, none, 2⟩] (by decide)).2⟩

/-- C7: reconciliation is idempotent under replay — a second call with
identical arguments leaves the stored numeric fields exactly as they were
after the first call. -/
theorem reconcile_replay_idempotent (cur : Option Row) (telegramId : Int)
    (rs ts : Option Int) (dn : Option String) (now : Int) :
    (reconcileStep (some (reconcileStep cur telegramId rs ts dn now))
        telegramId rs ts dn now).max_score =
      (reconcileStep cur telegramId rs ts dn now).max_score ∧
    (reconcileStep (some (reconcileStep cur telegramId rs ts dn now))
        telegramId rs ts dn now).total_score =
      (reconcileStep cur telegramId rs ts dn now).total_score := by
  constructor <;>
    simp [reconcileStep, buildRecord, applyUpsert, max_assoc]

/-- C9: a claimed display name is accepted exactly when its trimmed form
is 4–15 characters drawn from the Latin/Cyrillic letter, digit,
underscore, hyphen set; `"ab"` and `"name with space"` are rejected,
`"abcd"` and `"АБВГ"` accepted; a rejected claimed name leaves the stored
name unchanged. -/
theorem display_name_validation :
    (∀ raw : String,
      nameOkTest (jsTrim raw) = true ↔
        4 ≤ (jsTrim raw).length ∧ (jsTrim raw).length ≤ 15 ∧
          ∀ c ∈ (jsTrim raw).data, isNameChar c = true) ∧
    nameOkTest (jsTrim "ab") = false ∧
    nameOkTest (jsTrim "abcd") = true ∧
    nameOkTest (jsTrim "АБВГ") = true ∧
    nameOkTest (jsTrim "name with space") = false ∧
    (∀ (cur : Row) (telegramId : Int) (rs ts : Option Int)
        (dn : Option String) (now : Int),
      nameOkTest (jsTrim (dn.getD "")) = false →
      (reconcileStep (some cur) telegramId rs ts dn now).username = cur.username) := by
  refine ⟨?_, by decide, by decide, by decide, by decide, ?_⟩
  · intro raw
    simp [nameOkTest, Bool.and_eq_true, decide_eq_true_eq,
      List.all_eq_true, and_assoc]
  · intro cur telegramId rs ts dn now h
    simp [reconcileStep, buildRecord, applyUpsert, h]

theorem display_name_validation_witness :
    nameOkTest (jsTrim "ab") = false ∧
    (reconcileStep (some ⟨42, some "kitty", 10, 10, 0⟩) 42 (some 5) (some 30)
      (some "") 1).username = some "kitty" :=
  ⟨display_name_validation.2.1,
    display_name_validation.2.2.2.2.2 ⟨42, some "kitty", 10, 10, 0⟩ 42 (some 5)
      (some 30) (some "") 1 (by decide)⟩

/-- A store that has no row yet, echoes the upserted record from the
upsert's `select`, and finds nothing on refetch. -/
def okStore : StoreBehavior :=
  ⟨⟨none, none⟩, fun r => ⟨some [applyUpsert none r], none⟩, ⟨none, none⟩⟩

/-- A store whose upsert fails with message `"boom"`. -/
def errStore : StoreBehavior :=
  ⟨⟨none, none⟩, fun _ => ⟨none, some "boom"⟩, ⟨none, none⟩⟩

/-- A fully configured environment. -/
def envA : Env := ⟨some "url", some "svc", some "tok"⟩

/-- An HMAC oracle returning the empty byte string: its hex is `""`, so a
token whose `hash` field is empty "verifies". -/
def hmacZero : List Nat → List Nat → List Nat := fun _ _ => []

/-- An HMAC oracle that returns its message: distinct data-check strings
get distinct computed hashes. -/
def hmacEcho : List Nat → List Nat → List Nat := fun _ m => m

/-- A `JSON.parse`/`.id` oracle that always finds user id 42. -/
def userId42 : String → Option Int := fun _ => some 42

/-- C10: a request whose body is not valid JSON is answered with
HTTP 400 "Missing initData" rather than an unhandled fault, and an
omitted `runScore`/`totalScore` is treated as 0, leaving the
corresponding stored maximum unchanged. -/
theorem nonjson_body_rejected_missing_scores_default :
    (∀ (hmac : List Nat → List Nat → List Nat) (pu : String → Option Int)
        (env : Env) (now : Int) (store : StoreBehavior) (method : String),
      method ≠ "OPTIONS" →
      handleIndex hmac pu env now store ⟨method, none⟩ =
        ⟨400, .err "Missing initData"⟩ ∧
      handleHybrid hmac pu env now store ⟨method, none⟩ =
        ⟨400, .err "Missing initData"⟩) ∧
    (∀ (cur : Row) (telegramId : Int) (ts : Option Int) (dn : Option String)
        (now : Int), 0 ≤ cur.max_score →
      (reconcileStep (some cur) telegramId none ts dn now).max_score =
        cur.max_score) ∧
    (∀ (cur : Row) (telegramId : Int) (rs : Option Int) (dn : Option String)
        (now : Int), 0 ≤ cur.total_score →
      (reconcileStep (some cur) telegramId rs none dn now).total_score =
        cur.total_score) := by
  refine ⟨?_, ?_, ?_⟩
  · intro hmac pu env now store method hm
    have h1 : (method == "OPTIONS") = false := by simpa using hm
    constructor <;> simp [handleIndex, handleHybrid, h1, jsFalsyStr]
  · intro cur telegramId ts dn now h
    simpa [reconcileStep, buildRecord, applyUpsert] using max_eq_left h
  · intro cur telegramId rs dn now h
    simpa [reconcileStep, buildRecord, applyUpsert] using max_eq_left h

theorem nonjson_body_rejected_missing_scores_default_witness :
    handleIndex hmacZero userId42 envA 17 okStore ⟨"POST", none⟩ =
      ⟨400, .err "Missing initData"⟩ ∧
    (reconcileStep (some ⟨42, none, 9, 9, 0⟩) 42 none (some 4) none 1).max_score = 9 :=
  ⟨((nonjson_body_rejected_missing_scores_default.1 hmacZero userId42 envA 17
      okStore "POST" (by decide)).1),
    nonjson_body_rejected_missing_scores_default.2.1 ⟨42, none, 9, 9, 0⟩ 42
      (some 4) none 1 (by decide)⟩

/-- C1 counterexample: the strict variant (`index.ts`) performs no
`auth_date` check at all — a token whose `auth_date` lies 999999 seconds
in the past and whose signature matches (under the given HMAC oracle) is
accepted, not rejected with `StaleToken`; the same token and clock are
stale by the hybrid variant's own freshness predicate. -/
theorem strict_variant_accepts_stale_token :
    handleIndex hmacZero userId42 envA 1000000 okStore
      ⟨"POST", some ⟨some "user=u&auth_date=1&hash=", some 5, some 5, none⟩⟩ =
      ⟨200, .ack⟩ ∧
    hybridStale 1000000 "user=u&auth_date=1&hash=" = true := by
  exact ⟨rfl, rfl⟩

/-- C1 (amended): only the hybrid variant (`part_000`) enforces the
freshness gate — there, any request whose token is stale by the
`auth_date` check is rejected with 401 regardless of signature validity
(for every HMAC oracle). -/
theorem hybrid_freshness_unconditional
    (hmac : List Nat → List Nat → List Nat) (pu : String → Option Int)
    (url svc tok : String) (now : Int) (store : StoreBehavior)
    (method : String) (body : ReqBody) (initData : String)
    (hm : method ≠ "OPTIONS") (hi : body.initData = some initData)
    (hne : initData ≠ "") (hst : hybridStale now initData = true) :
    handleHybrid hmac pu ⟨some url, some svc, some tok⟩ now store
      ⟨method, some body⟩ = ⟨401, .err "Expired or invalid auth_date"⟩ := by
  have h1 : (method == "OPTIONS") = false := by simpa using hm
  have h2 : jsFalsyStr (some initData) = false := by simp [jsFalsyStr, hne]
  simp [handleHybrid, h1, h2, hi, hst]

theorem hybrid_freshness_unconditional_witness :
    handleHybrid hmacEcho userId42 ⟨some "url", some "svc", some "tok"⟩
      2000000 okStore
      ⟨"POST", some ⟨some "auth_date=5&user=u&hash=zz", some 1, some 1, none⟩⟩ =
      ⟨401, .err "Expired or invalid auth_date"⟩ :=
  hybrid_freshness_unconditional hmacEcho userId42 "url" "svc" "tok" 2000000
    okStore "POST" ⟨some "auth_date=5&user=u&hash=zz", some 1, some 1, none⟩
    "auth_date=5&user=u&hash=zz" (by decide) rfl (by decide) (by decide)

/-- C2 counterexample: a request that reaches a successful reconciliation
in the strict variant (`index.ts`) is answered with the bare
acknowledgment `{ ok: true }` — the response carries no `me` row. -/
theorem strict_variant_success_lacks_row :
    handleIndex hmacZero userId42 envA 1000 okStore
      ⟨"POST", some ⟨some "user=u&hash=", some 7, some 7, some "kitty"⟩⟩ =
      ⟨200, .ack⟩ := by
  rfl

/-- C2 (amended): in the hybrid variant (`part_000`) every successful
reconciliation responds `{ ok: true, me }` where `me` is the row for this
identity among the rows returned by the store's upsert acknowledgment,
or, when the acknowledgment contains no such row, the result of the
follow-up point read — never the locally computed candidate. -/
theorem hybrid_success_returns_persisted_row
    (hmac : List Nat → List Nat → List Nat) (pu : String → Option Int)
    (url svc tok : String) (now : Int) (store : StoreBehavior)
    (method : String) (body : ReqBody) (initData : String) (telegramId : Int)
    (hm : method ≠ "OPTIONS") (hi : body.initData = some initData)
    (hne : initData ≠ "") (hst : hybridStale now initData = false)
    (hv : verifyManual hmac initData.data tok.data ≠ none)
    (hu : extractTelegramId pu initData = some telegramId)
    (ht : telegramId ≠ 0)
    (hup : (store.upsertResp (buildRecord store.readResp.data telegramId
      body.runScore body.totalScore body.displayName now)).error = none) :
    (∀ r : Row,
      upsertReturnedRow (store.upsertResp (buildRecord store.readResp.data
          telegramId body.runScore body.totalScore body.displayName now))
          telegramId = some r →
      handleHybrid hmac pu ⟨some url, some svc, some tok⟩ now store
        ⟨method, some body⟩ = ⟨200, .okMe (some r)⟩) ∧
    (upsertReturnedRow (store.upsertResp (buildRecord store.readResp.data
        telegramId body.runScore body.totalScore body.displayName now))
        telegramId = none →
      handleHybrid hmac pu ⟨some url, some svc, some tok⟩ now store
        ⟨method, some body⟩ = ⟨200, .okMe store.refetchResp.data⟩) := by
  obtain ⟨vb, hvb⟩ := Option.ne_none_iff_exists'.mp hv
  have h1 : (method == "OPTIONS") = false := by simpa using hm
  have h2 : jsFalsyStr (some initData) = false := by simp [jsFalsyStr, hne]
  have ht' : (telegramId == 0) = false := by simpa using ht
  constructor
  · intro r hr
    simp [handleHybrid, h1, h2, hi, hst, hvb, hu, ht', hup, hr]
  · intro hr
    simp [handleHybrid, h1, h2, hi, hst, hvb, hu, ht', hup, hr]

theorem hybrid_success_returns_persisted_row_witness :
    handleHybrid hmacZero userId42 ⟨some "url", some "svc", some "tok"⟩ 1000
      okStore
      ⟨"POST", some ⟨some "user=u&auth_date=900&hash=", some 5, some 5, none⟩⟩ =
      ⟨200, .okMe (some ⟨42, none, 5, 5, 1000⟩)⟩ :=
  (hybrid_success_returns_persisted_row hmacZero userId42 "url" "svc" "tok"
    1000 okStore "POST" ⟨some "user=u&auth_date=900&hash=", some 5, some 5, none⟩
    "user=u&auth_date=900&hash=" 42 (by decide) rfl (by decide) (by decide)
    (by decide) rfl (by decide) rfl).1 ⟨42, none, 5, 5, 1000⟩ rfl

/-- C3 counterexample: a failing upsert is surfaced with the underlying
message but with HTTP status 400, not 500 as claimed. -/
theorem hybrid_upsert_error_status_400 :
    handleHybrid hmacZero userId42 envA 1000 errStore
      ⟨"POST", some ⟨some "user=u&auth_date=500&hash=", some 5, some 5, none⟩⟩ =
      ⟨400, .err "boom"⟩ := by
  rfl

/-- C3 (amended): in both variants an upsert failure is surfaced, carrying
the store's error message, but with HTTP status 400; a failure of the
initial point read, by contrast, is never surfaced — both handlers ignore
the read's error component entirely and proceed as if the row were
absent. -/
theorem store_failures_surfacing :
    (∀ (hmac : List Nat → List Nat → List Nat) (pu : String → Option Int)
        (url svc tok : String) (now : Int) (store : StoreBehavior)
        (method : String) (body : ReqBody) (initData msg : String)
        (telegramId : Int),
      method ≠ "OPTIONS" → body.initData = some initData → initData ≠ "" →
      hybridStale now initData = false →
      verifyManual hmac initData.data tok.data ≠ none →
      extractTelegramId pu initData = some telegramId → telegramId ≠ 0 →
      (store.upsertResp (buildRecord store.readResp.data telegramId
        body.runScore body.totalScore body.displayName now)).error = some msg →
      handleHybrid hmac pu ⟨some url, some svc, some tok⟩ now store
        ⟨method, some body⟩ = ⟨400, .err msg⟩) ∧
    (∀ (hmac : List Nat → List Nat → List Nat) (pu : String → Option Int)
        (url svc tok : String) (now : Int) (store : StoreBehavior)
        (method : String) (body : ReqBody) (initData msg : String)
        (telegramId : Int),
      method ≠ "OPTIONS" → body.initData = some initData → initData ≠ "" →
      verifyUsp hmac initData.data tok.data = true →
      extractTelegramId pu initData = some telegramId → telegramId ≠ 0 →
      (store.upsertResp (buildRecord store.readResp.data telegramId
        body.runScore body.totalScore body.displayName now)).error = some msg →
      handleIndex hmac pu ⟨some url, some svc, some tok⟩ now store
        ⟨method, some body⟩ = ⟨400, .err msg⟩) ∧
    (∀ (hmac : List Nat → List Nat → List Nat) (pu : String → Option Int)
        (env : Env) (now : Int) (rd : Option Row) (e e' : Option String)
        (up : UpsertRecord → UpsertResp) (rf : StoreResp) (req : Req),
      handleIndex hmac pu env now ⟨⟨rd, e⟩, up, rf⟩ req =
        handleIndex hmac pu env now ⟨⟨rd, e'⟩, up, rf⟩ req ∧
      handleHybrid hmac pu env now ⟨⟨rd, e⟩, up, rf⟩ req =
        handleHybrid hmac pu env now ⟨⟨rd, e'⟩, up, rf⟩ req) := by
  refine ⟨?_, ?_, ?_⟩
  · intro hmac pu url svc tok now store method body initData msg telegramId
      hm hi hne hst hv hu ht hup
    obtain ⟨vb, hvb⟩ := Option.ne_none_iff_exists'.mp hv
    have h1 : (method == "OPTIONS") = false := by simpa using hm
    have h2 : jsFalsyStr (some initData) = false := by simp [jsFalsyStr, hne]
    have ht' : (telegramId == 0) = false := by simpa using ht
    simp [handleHybrid, h1, h2, hi, hst, hvb, hu, ht', hup]
  · intro hmac pu url svc tok now store method body initData msg telegramId
      hm hi hne hv hu ht hup
    have h1 : (method == "OPTIONS") = false := by simpa using hm
    have h2 : jsFalsyStr (some initData) = false := by simp [jsFalsyStr, hne]
    have ht' : (telegramId == 0) = false := by simpa using ht
    simp [handleIndex, h1, h2, hi, hv, hu, ht', hup]
  · intro hmac pu env now rd e e' up rf req
    exact ⟨rfl, rfl⟩

theorem store_failures_surfacing_witness :
    handleHybrid hmacEcho userId42 ⟨some "url", some "svc", some "tok"⟩ 2000
      errStore
      ⟨"POST", some ⟨some "user=u&auth_date=1900&hash=", some 2, some 2, none⟩⟩ =
      ⟨400, .err "boom"⟩ ∧
    handleIndex hmacZero userId42 ⟨some "url", some "svc", some "tok"⟩ 2000
      errStore ⟨"POST", some ⟨some "user=u&hash=", some 2, some 2, none⟩⟩ =
      ⟨400, .err "boom"⟩ ∧
    handleIndex hmacZero userId42 envA 5 ⟨⟨none, some "down"⟩,
        fun r => ⟨some [applyUpsert none r], none⟩, ⟨none, none⟩⟩
      ⟨"POST", some ⟨some "user=u&hash=", some 1, some 1, none⟩⟩ =
      handleIndex hmacZero userId42 envA 5 ⟨⟨none, none⟩,
        fun r => ⟨some [applyUpsert none r], none⟩, ⟨none, none⟩⟩
      ⟨"POST", some ⟨some "user=u&hash=", some 1, some 1, none⟩⟩ :=
  ⟨store_failures_surfacing.1 hmacEcho userId42 "url" "svc" "tok" 2000 errStore
      "POST" ⟨some "user=u&auth_date=1900&hash=", some 2, some 2, none⟩
      "user=u&auth_date=1900&hash=" "boom" 42 (by decide) rfl (by decide)
      (by decide) (by decide) rfl (by decide) rfl,
    store_failures_surfacing.2.1 hmacZero userId42 "url" "svc" "tok" 2000
      errStore "POST" ⟨some "user=u&hash=", some 2, some 2, none⟩
      "user=u&hash=" "boom" 42 (by decide) rfl (by decide) (by decide) rfl
      (by decide) rfl,
    (store_failures_surfacing.2.2 hmacZero userId42 envA 5 none (some "down")
      none (fun r => ⟨some [applyUpsert none r], none⟩) ⟨none, none⟩
      ⟨"POST", some ⟨some "user=u&hash=", some 1, some 1, none⟩⟩).1⟩

/-- C8 counterexample: a token with no `user` field at all that is also
stale is rejected by the hybrid variant with the freshness error, not
with `NoIdentity` — the user check does not apply "regardless of steps
1–6's outcome". -/
theorem stale_error_precedes_user_check :
    handleHybrid hmacZero (fun _ => none) envA 987654 okStore
      ⟨"POST", some ⟨some "auth_date=7&hash=q", some 1, some 1, none⟩⟩ =
      ⟨401, .err "Expired or invalid auth_date"⟩ := by
  rfl

/-- C8 (amended): once the earlier gates pass (signature check in the
strict variant; freshness and a non-throwing parse in the hybrid
variant), a token whose `user` field is absent or yields no numeric id is
rejected with 400 "No Telegram user". -/
theorem no_identity_rejected_after_gates :
    (∀ (hmac : List Nat → List Nat → List Nat) (pu : String → Option Int)
        (url svc tok : String) (now : Int) (store : StoreBehavior)
        (method : String) (body : ReqBody) (initData : String),
      method ≠ "OPTIONS" → body.initData = some initData → initData ≠ "" →
      verifyUsp hmac initData.data tok.data = true →
      extractTelegramId pu initData = none →
      handleIndex hmac pu ⟨some url, some svc, some tok⟩ now store
        ⟨method, some body⟩ = ⟨400, .err "No Telegram user"⟩) ∧
    (∀ (hmac : List Nat → List Nat → List Nat) (pu : String → Option Int)
        (url svc tok : String) (now : Int) (store : StoreBehavior)
        (method : String) (body : ReqBody) (initData : String),
      method ≠ "OPTIONS" → body.initData = some initData → initData ≠ "" →
      hybridStale now initData = false →
      verifyManual hmac initData.data tok.data ≠ none →
      extractTelegramId pu initData = none →
      handleHybrid hmac pu ⟨some url, some svc, some tok⟩ now store
        ⟨method, some body⟩ = ⟨400, .err "No Telegram user"⟩) := by
  constructor
  · intro hmac pu url svc tok now store method body initData hm hi hne hv hu
    have h1 : (method == "OPTIONS") = false := by simpa using hm
    have h2 : jsFalsyStr (some initData) = false := by simp [jsFalsyStr, hne]
    simp [handleIndex, h1, h2, hi, hv, hu]
  · intro hmac pu url svc tok now store method body initData hm hi hne hst hv hu
    obtain ⟨vb, hvb⟩ := Option.ne_none_iff_exists'.mp hv
    have h1 : (method == "OPTIONS") = false := by simpa using hm
    have h2 : jsFalsyStr (some initData) = false := by simp [jsFalsyStr, hne]
    simp [handleHybrid, h1, h2, hi, hst, hvb, hu]

theorem no_identity_rejected_after_gates_witness :
    handleIndex hmacZero (fun _ => none) ⟨some "url", some "svc", some "tok"⟩ 3
      okStore ⟨"POST", some ⟨some "user=zz&hash=", some 1, some 1, none⟩⟩ =
      ⟨400, .err "No Telegram user"⟩ ∧
    handleHybrid hmacZero (fun _ => none) ⟨some "url", some "svc", some "tok"⟩
      50 okStore ⟨"POST", some ⟨some "user=zz&auth_date=9&hash=", some 1,
        some 1, none⟩⟩ = ⟨400, .err "No Telegram user"⟩ :=
  ⟨no_identity_rejected_after_gates.1 hmacZero (fun _ => none) "url" "svc"
      "tok" 3 okStore "POST" ⟨some "user=zz&hash=", some 1, some 1, none⟩
      "user=zz&hash=" (by decide) rfl (by decide) (by decide) rfl,
    no_identity_rejected_after_gates.2 hmacZero (fun _ => none) "url" "svc"
      "tok" 50 okStore "POST"
      ⟨some "user=zz&auth_date=9&hash=", some 1, some 1, none⟩
      "user=zz&auth_date=9&hash=" (by decide) rfl (by decide) (by decide)
      (by decide) rfl⟩

/-- URL-safe characters (RFC 3986 unreserved set): decode to themselves
under both decoders, are all strictly above `,` in code-unit order, and
are distinct from the structural characters `& = % + ? ,`. -/
def safeChar (c : Char) : Bool :=
  let v := c.toNat
  decide ((48 ≤ v ∧ v ≤ 57) ∨ (65 ≤ v ∧ v ≤ 90) ∨ (97 ≤ v ∧ v ≤ 122) ∨
    v = 95 ∨ v = 45 ∨ v = 46 ∨ v = 126)

/-- Parts of the token (`initData.split('&')`). -/
def rawParts (t : List Char) : List (List Char) := splitOnCh '&' t

/-- Raw (undecoded) key–value pairs of the token's parts. -/
def rawPairs (t : List Char) : List (List Char × List Char) :=
  (rawParts t).map splitFirstEq

/-- The raw pairs that participate in the data-check string. -/
def dataPairs (t : List Char) : List (List Char × List Char) :=
  (rawPairs t).filter
    (fun p => p.1 != "hash".data && p.1 != "signature".data)

/-- The raw claimed signature: value of the first (under well-formedness,
unique) `hash` field, or `""`. -/
def rawHash (t : List Char) : List Char :=
  (uspGet (rawPairs t) "hash".data).getD []

/-- A well-formed token: every character is URL-safe, `=` or `&`; no
`&`-segment is empty; and the keys of the segments are pairwise distinct.
On such tokens the two parsing strategies of the duplicated verifiers
coincide. -/
def TokenOk (t : List Char) : Prop :=
  (∀ c ∈ t, safeChar c = true ∨ c = '=' ∨ c = '&') ∧
  (∀ p ∈ rawParts t, p ≠ []) ∧
  ((rawParts t).map (fun p => (splitFirstEq p).1)).Nodup

theorem safeChar_toNat {c : Char} (h : safeChar c = true) :
    44 < c.toNat ∧ c.toNat ≠ 61 ∧ c.toNat ≠ 63 ∧ c.toNat ≠ 38 := by
  simp only [safeChar, decide_eq_true_eq] at h
  omega

theorem safeChar_ne {c : Char} (h : safeChar c = true) :
    c ≠ '%' ∧ c ≠ '+' ∧ c ≠ '=' ∧ c ≠ '&' ∧ c ≠ '?' ∧ c ≠ ',' := by
  have h' := safeChar_toNat h
  refine ⟨?_, ?_, ?_, ?_, ?_, ?_⟩ <;>
    (intro he; subst he; simp [Char.toNat, UInt32.size] at h')

theorem decStrictGo_id :
    ∀ (cs : List Char) (fuel : Nat), cs.length ≤ fuel →
      (∀ c ∈ cs, c ≠ '%') → decStrictGo fuel cs = some cs := by
  intro cs
  induction cs with
  | nil => intro fuel _ _; cases fuel <;> rfl
  | cons c cs ih =>
    intro fuel hlen hp
    cases fuel with
    | zero => simp at hlen
    | succ f =>
      have hc : c ≠ '%' := hp c (List.mem_cons_self _ _)
      have hrec := ih f (by simp at hlen; omega)
        (fun x hx => hp x (List.mem_cons_of_mem _ hx))
      simp [decStrictGo, hc, hrec]

theorem decPercentStrict_id (cs : List Char) (hp : ∀ c ∈ cs, c ≠ '%') :
    decPercentStrict cs = some cs :=
  decStrictGo_id cs cs.length le_rfl hp

theorem decLossyGo_id :
    ∀ (cs : List Char) (fuel : Nat), cs.length ≤ fuel →
      (∀ c ∈ cs, c ≠ '%') → decLossyGo fuel cs = cs := by
  intro cs
  induction cs with
  | nil => intro fuel _ _; cases fuel <;> rfl
  | cons c cs ih =>
    intro fuel hlen hp
    cases fuel with
    | zero => simp at hlen
    | succ f =>
      have hc : c ≠ '%' := hp c (List.mem_cons_self _ _)
      have hrec := ih f (by simp at hlen; omega)
        (fun x hx => hp x (List.mem_cons_of_mem _ hx))
      simp [decLossyGo, hc, hrec]

theorem uspDecode_id (cs : List Char)
    (hp : ∀ c ∈ cs, c ≠ '%' ∧ c ≠ '+') : uspDecode cs = cs := by
  have hmap : cs.map (fun c => if c = '+' then ' ' else c) = cs := by
    have h := List.map_congr_left (l := cs)
      (f := fun c => if c = '+' then ' ' else c) (g := id)
      (fun a ha => by simp [(hp a ha).2])
    simpa using h
  show decPercentLossy (cs.map (fun c => if c = '+' then ' ' else c)) = cs
  rw [hmap]
  exact decLossyGo_id cs cs.length le_rfl (fun c hc => (hp c hc).1)

theorem splitFirstEq_spec :
    ∀ p : List Char,
      '=' ∉ (splitFirstEq p).1 ∧
      (p = (splitFirstEq p).1 ++ '=' :: (splitFirstEq p).2 ∨
        (p = (splitFirstEq p).1 ∧ (splitFirstEq p).2 = [])) := by
  intro p
  induction p with
  | nil => simp [splitFirstEq]
  | cons c rest ih =>
    by_cases hc : c = '='
    · subst hc
      simp [splitFirstEq]
    · simp only [splitFirstEq, if_neg hc]
      refine ⟨by simp [Ne.symm hc, ih.1], ?_⟩
      rcases ih.2 with h | ⟨h1, h2⟩
      · left; simp [← h]
      · right; simp [← h1, h2]

theorem splitOnCh_sep_not_mem (sep : Char) :
    ∀ cs : List Char, ∀ p ∈ splitOnCh sep cs, sep ∉ p := by
  intro cs
  induction cs with
  | nil => intro p hp; simp [splitOnCh] at hp; simp [hp]
  | cons c rest ih =>
    intro p hp
    simp only [splitOnCh] at hp
    by_cases hc : c = sep
    · rw [if_pos hc] at hp
      rcases List.mem_cons.mp hp with h | h
      · simp [h]
      · exact ih p h
    · rw [if_neg hc] at hp
      rcases hr : splitOnCh sep rest with _ | ⟨h0, t0⟩
      · rw [hr] at hp
        simp at hp
        subst hp
        simp only [List.mem_singleton]
        exact fun he => hc he.symm
      · rw [hr] at hp
        rcases List.mem_cons.mp hp with h | h
        · subst h
          intro hm
          rcases List.mem_cons.mp hm with he | hm
          · exact hc he.symm
          · exact ih h0 (by rw [hr]; exact List.mem_cons_self _ _) hm
        · exact ih p (by rw [hr]; exact List.mem_cons_of_mem _ h)

theorem splitOnCh_mem_subset (sep : Char) :
    ∀ cs : List Char, ∀ p ∈ splitOnCh sep cs, ∀ c ∈ p, c ∈ cs := by
  intro cs
  induction cs with
  | nil => intro p hp; simp [splitOnCh] at hp; simp [hp]
  | cons x rest ih =>
    intro p hp c hc
    simp only [splitOnCh] at hp
    by_cases hx : x = sep
    · rw [if_pos hx] at hp
      rcases List.mem_cons.mp hp with h | h
      · subst h; simp at hc
      · exact List.mem_cons_of_mem _ (ih p h c hc)
    · rw [if_neg hx] at hp
      rcases hr : splitOnCh sep rest with _ | ⟨h0, t0⟩
      · rw [hr] at hp
        simp at hp
        subst hp
        simp at hc
        simp [hc]
      · rw [hr] at hp
        rcases List.mem_cons.mp hp with h | h
        · subst h
          rcases List.mem_cons.mp hc with he | hcc
          · subst he; exact List.mem_cons_self _ _
          · exact List.mem_cons_of_mem _
              (ih h0 (by rw [hr]; exact List.mem_cons_self _ _) c hcc)
        · exact List.mem_cons_of_mem _
            (ih p (by rw [hr]; exact List.mem_cons_of_mem _ h) c hc)

theorem lcLe_total : ∀ a b : List Char, lcLe a b = true ∨ lcLe b a = true := by
  intro a
  induction a with
  | nil => intro b; left; simp [lcLe]
  | cons x xs ih =>
    intro b
    rcases b with _ | ⟨y, ys⟩
    · right; simp [lcLe]
    · simp only [lcLe]
      rcases Nat.lt_trichotomy x.toNat y.toNat with h | h | h
      · left; simp [h]
      · have hxy : ¬x.toNat < y.toNat := by omega
        have hyx : ¬y.toNat < x.toNat := by omega
        simp [hxy, hyx]
        exact ih ys
      · right; simp [h]

theorem lcLe_trans :
    ∀ a b c : List Char, lcLe a b = true → lcLe b c = true →
      lcLe a c = true := by
  intro a
  induction a with
  | nil => intro b c _ _; simp [lcLe]
  | cons x xs ih =>
    intro b c hab hbc
    rcases b with _ | ⟨y, ys⟩
    · simp [lcLe] at hab
    · rcases c with _ | ⟨z, zs⟩
      · simp [lcLe] at hbc
      · simp only [lcLe] at hab hbc ⊢
        rcases Nat.lt_trichotomy x.toNat y.toNat with h1 | h1 | h1 <;>
          rcases Nat.lt_trichotomy y.toNat z.toNat with h2 | h2 | h2 <;>
          first
          | (simp [show x.toNat < z.toNat by omega])
          | (exfalso; revert hab; simp [show ¬x.toNat < y.toNat by omega,
              show y.toNat < x.toNat by omega])
          | (exfalso; revert hbc; simp [show ¬y.toNat < z.toNat by omega,
              show z.toNat < y.toNat by omega])
          | (have hxz : ¬x.toNat < z.toNat := by omega
             have hzx : ¬z.toNat < x.toNat := by omega
             simp only [if_neg hxz, if_neg hzx]
             simp [show ¬x.toNat < y.toNat from by omega,
               show ¬y.toNat < x.toNat from by omega] at hab
             simp [show ¬y.toNat < z.toNat from by omega,
               show ¬z.toNat < y.toNat from by omega] at hbc
             exact ih ys zs hab hbc)

theorem char_eq_of_toNat_eq {x y : Char} (h : x.toNat = y.toNat) : x = y := by
  exact_mod_cast Char.ofNat_toNat x ▸ Char.ofNat_toNat y ▸ congrArg Char.ofNat h

theorem lcLe_antisymm :
    ∀ a b : List Char, lcLe a b = true → lcLe b a = true → a = b := by
  intro a
  induction a with
  | nil =>
    intro b hab hba
    rcases b with _ | ⟨y, ys⟩
    · rfl
    · simp [lcLe] at hba
  | cons x xs ih =>
    intro b hab hba
    rcases b with _ | ⟨y, ys⟩
    · simp [lcLe] at hab
    · simp only [lcLe] at hab hba
      rcases Nat.lt_trichotomy x.toNat y.toNat with h | h | h
      · exfalso; revert hba
        simp [show ¬y.toNat < x.toNat by omega, show x.toNat < y.toNat from h]
      · have hx : x = y := char_eq_of_toNat_eq h
        subst hx
        simp only [lt_irrefl, if_neg (lt_irrefl x.toNat)] at hab hba
        simp at hab hba
        rw [ih ys hab hba]
      · exfalso; revert hab
        simp [show ¬x.toNat < y.toNat by omega, show y.toNat < x.toNat from h]

theorem insertStable_perm (le : α → α → Bool) (a : α) :
    ∀ l : List α, (insertStable le a l).Perm (a :: l) := by
  intro l
  induction l with
  | nil => simp [insertStable]
  | cons b bs ih =>
    simp only [insertStable]
    by_cases h : (le b a && !le a b) = true
    · rw [if_pos h]
      exact (ih.cons b).trans (List.Perm.swap a b bs)
    · rw [if_neg h]

theorem sortJs_perm (le : α → α → Bool) :
    ∀ l : List α, (sortJs le l).Perm l := by
  intro l
  induction l with
  | nil => simp [sortJs]
  | cons a as ih =>
    exact (insertStable_perm le a (sortJs le as)).trans (ih.cons a)

theorem insertStable_sorted (le : α → α → Bool)
    (htot : ∀ x y, le x y = true ∨ le y x = true)
    (htr : ∀ x y z, le x y = true → le y z = true → le x z = true)
    (a : α) :
    ∀ l : List α, l.Pairwise (fun x y => le x y = true) →
      (insertStable le a l).Pairwise (fun x y => le x y = true) := by
  intro l
  induction l with
  | nil => intro _; simp [insertStable]
  | cons b bs ih =>
    intro hl
    rcases List.pairwise_cons.mp hl with ⟨hb, hbs⟩
    simp only [insertStable]
    by_cases h : (le b a && !le a b) = true
    · rw [if_pos h]
      have hba : le b a = true := by
        have := h
        simp only [Bool.and_eq_true] at this
        exact this.1
      refine List.pairwise_cons.mpr ⟨?_, ih hbs⟩
      intro x hx
      have hx' : x ∈ a :: bs := (insertStable_perm le a bs).mem_iff.mp hx
      rcases List.mem_cons.mp hx' with he | hxbs
      · subst he; exact hba
      · exact hb x hxbs
    · rw [if_neg h]
      have hab : le a b = true := by
        rcases htot a b with h' | h'
        · exact h'
        · by_cases h2 : le a b = true
          · exact h2
          · exact absurd (by simp [h', h2]) h
      refine List.pairwise_cons.mpr ⟨?_, hl⟩
      intro x hx
      rcases List.mem_cons.mp hx with he | hxbs
      · subst he; exact hab
      · exact htr a b x hab (hb x hxbs)

theorem sortJs_sorted (le : α → α → Bool)
    (htot : ∀ x y, le x y = true ∨ le y x = true)
    (htr : ∀ x y z, le x y = true → le y z = true → le x z = true) :
    ∀ l : List α, (sortJs le l).Pairwise (fun x y => le x y = true) := by
  intro l
  induction l with
  | nil => simp [sortJs]
  | cons a as ih => exact insertStable_sorted le htot htr a _ ih

theorem perm_pairwise_eq {α : Type} (r : α → α → Prop) :
    ∀ (l₁ l₂ : List α), (∀ a ∈ l₁, ∀ b ∈ l₁, r a b → r b a → a = b) →
      l₁.Perm l₂ → l₁.Pairwise r → l₂.Pairwise r → l₁ = l₂ := by
  intro l₁
  induction l₁ with
  | nil =>
    intro l₂ _ hp _ _
    exact (hp.symm.eq_nil).symm
  | cons a l₁ ih =>
    intro l₂ hanti hp hs₁ hs₂
    rcases l₂ with _ | ⟨b, l₂⟩
    · exact absurd hp.eq_nil (by simp)
    · by_cases hab : a = b
      · subst hab
        have hp' := hp.cons_inv
        have ht := ih l₂
          (fun x hx y hy => hanti x (List.mem_cons_of_mem _ hx)
            y (List.mem_cons_of_mem _ hy))
          hp' (List.Pairwise.of_cons hs₁) (List.Pairwise.of_cons hs₂)
        rw [ht]
      · exfalso
        have hb1 : b ∈ a :: l₁ := hp.mem_iff.mpr (List.mem_cons_self _ _)
        have ha2 : a ∈ b :: l₂ := hp.mem_iff.mp (List.mem_cons_self _ _)
        have hbl : b ∈ l₁ := by
          rcases List.mem_cons.mp hb1 with h | h
          · exact absurd h.symm hab
          · exact h
        have hal : a ∈ l₂ := by
          rcases List.mem_cons.mp ha2 with h | h
          · exact absurd h hab
          · exact h
        have hrab : r a b := (List.pairwise_cons.mp hs₁).1 b hbl
        have hrba : r b a := (List.pairwise_cons.mp hs₂).1 a hal
        exact hab (hanti a (List.mem_cons_self _ _) b hb1 hrab hrba)

theorem append_comma_inj :
    ∀ (k1 : List Char) (v1 : List Char) (k2 : List Char) (v2 : List Char),
      ',' ∉ k1 → ',' ∉ k2 →
      k1 ++ ',' :: v1 = k2 ++ ',' :: v2 → k1 = k2 ∧ v1 = v2 := by
  intro k1
  induction k1 with
  | nil =>
    intro v1 k2 v2 _ h2 he
    rcases k2 with _ | ⟨d, k2'⟩
    · simpa using he
    · simp at he
      exact absurd (he.1 ▸ List.mem_cons_self ',' k2') h2
  | cons c k1' ih =>
    intro v1 k2 v2 h1 h2 he
    rcases k2 with _ | ⟨d, k2'⟩
    · simp at he
      exact absurd (he.1 ▸ List.mem_cons_self ',' k1') h1
    · simp at he
      obtain ⟨hcd, ht⟩ := he
      obtain ⟨hk, hv⟩ := ih v1 k2' v2 (fun hm => h1 (List.mem_cons_of_mem _ hm))
        (fun hm => h2 (List.mem_cons_of_mem _ hm)) ht
      exact ⟨by rw [hcd, hk], hv⟩

theorem lcLe_append_comma :
    ∀ (k1 k2 v1 v2 : List Char),
      (∀ c ∈ k1, 44 < c.toNat) → (∀ c ∈ k2, 44 < c.toNat) → k1 ≠ k2 →
      lcLe (k1 ++ ',' :: v1) (k2 ++ ',' :: v2) = lcLe k1 k2 := by
  intro k1
  induction k1 with
  | nil =>
    intro k2 v1 v2 _ h2 hne
    rcases k2 with _ | ⟨d, k2'⟩
    · exact absurd rfl hne
    · have hd : 44 < d.toNat := h2 d (List.mem_cons_self _ _)
      have hcomma : (',' : Char).toNat = 44 := rfl
      simp [lcLe, hcomma, hd]
  | cons c k1' ih =>
    intro k2 v1 v2 h1 h2 hne
    rcases k2 with _ | ⟨d, k2'⟩
    · have hc : 44 < c.toNat := h1 c (List.mem_cons_self _ _)
      have hcomma : (',' : Char).toNat = 44 := rfl
      simp [lcLe, hcomma, show ¬c.toNat < 44 by omega, show 44 < c.toNat from hc]
    · simp only [List.cons_append, lcLe]
      rcases Nat.lt_trichotomy c.toNat d.toNat with h | h | h
      · simp [h]
      · have hcd : c = d := char_eq_of_toNat_eq h
        subst hcd
        simp only [lt_irrefl, if_neg (lt_irrefl c.toNat)]
        exact ih k2' v1 v2 (fun x hx => h1 x (List.mem_cons_of_mem _ hx))
          (fun x hx => h2 x (List.mem_cons_of_mem _ hx))
          (fun he => hne (by rw [he]))
      · simp [show ¬c.toNat < d.toNat by omega, h]

/-- The hash value accumulated by the manual loop over a list of parts
(last `hash` occurrence wins), starting from `h0`. -/
def partsHash (h0 : List Char) (ps : List (List Char)) : List Char :=
  ps.foldl
    (fun h q => if (splitFirstEq q).1 == "hash".data then (splitFirstEq q).2 else h)
    h0

/-- The raw key–value pairs of the parts that are neither `hash` nor
`signature`. -/
def partsData (ps : List (List Char)) : List (List Char × List Char) :=
  (ps.map splitFirstEq).filter
    (fun p => p.1 != "hash".data && p.1 != "signature".data)

theorem lcLe_refl : ∀ a : List Char, lcLe a a = true := by
  intro a
  induction a with
  | nil => simp [lcLe]
  | cons x xs ih => simp [lcLe, ih]

theorem entryLe_total (p q : List Char × List Char) :
    entryLe p q = true ∨ entryLe q p = true :=
  lcLe_total (entryKeyStr p) (entryKeyStr q)

theorem entryLe_trans (p q r : List Char × List Char) :
    entryLe p q = true → entryLe q r = true → entryLe p r = true :=
  lcLe_trans (entryKeyStr p) (entryKeyStr q) (entryKeyStr r)

theorem splitFirstEq_fst_subset :
    ∀ (q : List Char) (c : Char), c ∈ (splitFirstEq q).1 → c ∈ q := by
  intro q c hc
  rcases (splitFirstEq_spec q).2 with h | ⟨h, _⟩
  · rw [h]; exact List.mem_append_left _ hc
  · rw [h]; exact hc

theorem splitFirstEq_snd_subset :
    ∀ (q : List Char) (c : Char), c ∈ (splitFirstEq q).2 → c ∈ q := by
  intro q c hc
  rcases (splitFirstEq_spec q).2 with h | ⟨_, h2⟩
  · rw [h]
    exact List.mem_append_right _ (List.mem_cons_of_mem _ hc)
  · rw [h2] at hc
    simp at hc

theorem tokenOk_part_char {t : List Char} (h : TokenOk t) {q : List Char}
    (hq : q ∈ rawParts t) {c : Char} (hc : c ∈ q) :
    safeChar c = true ∨ c = '=' := by
  have hmem : c ∈ t := splitOnCh_mem_subset '&' t q hq c hc
  have hns : c ≠ '&' := by
    intro he
    exact splitOnCh_sep_not_mem '&' t q hq (he ▸ hc)
  rcases h.1 c hmem with hs | he | ha
  · exact Or.inl hs
  · exact Or.inr he
  · exact absurd ha hns

theorem tokenOk_key_safe {t : List Char} (h : TokenOk t) {q : List Char}
    (hq : q ∈ rawParts t) {c : Char} (hc : c ∈ (splitFirstEq q).1) :
    safeChar c = true := by
  rcases tokenOk_part_char h hq (splitFirstEq_fst_subset q c hc) with hs | he
  · exact hs
  · exact absurd he (fun he' => (splitFirstEq_spec q).1 (he' ▸ hc))

theorem tokenOk_val_nopct {t : List Char} (h : TokenOk t) {q : List Char}
    (hq : q ∈ rawParts t) {c : Char} (hc : c ∈ (splitFirstEq q).2) :
    c ≠ '%' ∧ c ≠ '+' := by
  rcases tokenOk_part_char h hq (splitFirstEq_snd_subset q c hc) with hs | he
  · exact ⟨(safeChar_ne hs).1, (safeChar_ne hs).2.1⟩
  · subst he
    refine ⟨by decide, by decide⟩

theorem uspEntries_eq {t : List Char} (h : TokenOk t) :
    uspEntries t = rawPairs t := by
  have hne : ∀ p ∈ rawParts t, p ≠ [] := h.2.1
  have hraw : uspRawEntries t = rawPairs t := by
    rcases ht : t with _ | ⟨c, rest⟩
    · exact absurd rfl (hne [] (by simp [rawParts, splitOnCh, ht]))
    · have hc : c ≠ '?' := by
        have hmem : c ∈ t := ht ▸ List.mem_cons_self _ _
        rcases h.1 c hmem with hs | he | ha
        · exact (safeChar_ne hs).2.2.2.2.1
        · subst he; decide
        · subst ha; decide
      have hne' : ∀ p ∈ splitOnCh '&' (c :: rest), p ≠ [] := by
        intro p hp
        exact hne p (by rw [rawParts, ht]; exact hp)
      have hfil : (splitOnCh '&' (c :: rest)).filter (fun p => !p.isEmpty) =
          splitOnCh '&' (c :: rest) := by
        apply List.filter_eq_self.mpr
        intro p hp
        simp [List.isEmpty_iff, hne' p hp]
      simp only [uspRawEntries, if_neg hc]
      rw [hfil]
      rfl
  show (uspRawEntries t).map
      (fun p => (uspDecode p.1, uspDecode p.2)) = rawPairs t
  rw [hraw]
  have : ∀ p ∈ rawPairs t, (uspDecode p.1, uspDecode p.2) = p := by
    intro p hp
    obtain ⟨q, hq, hsp⟩ := List.mem_map.mp hp
    have hk : uspDecode p.1 = p.1 := by
      apply uspDecode_id
      intro c hc
      have hs := tokenOk_key_safe h hq (by rw [hsp]; exact hc)
      exact ⟨(safeChar_ne hs).1, (safeChar_ne hs).2.1⟩
    have hv : uspDecode p.2 = p.2 := by
      apply uspDecode_id
      intro c hc
      exact tokenOk_val_nopct h hq (by rw [hsp]; exact hc)
    rw [hk, hv]
  calc (rawPairs t).map (fun p => (uspDecode p.1, uspDecode p.2))
      = (rawPairs t).map id := List.map_congr_left (fun a ha => this a ha)
    _ = rawPairs t := List.map_id _

theorem jsObjInsert_append (l : List (List Char × List Char))
    (k v : List Char) (hk : ∀ e ∈ l, e.1 ≠ k) :
    jsObjInsert l k v = l ++ [(k, v)] := by
  have hany : l.any (fun p => p.1 == k) = false := by
    simp only [List.any_eq_false]
    intro p hp
    simp [hk p hp]
  simp [jsObjInsert, hany]

theorem manualFoldl_char :
    ∀ (ps : List (List Char)) (st : ManualParse),
      (∀ q ∈ ps, decPercentStrict (splitFirstEq q).2 = some (splitFirstEq q).2) →
      (∀ q ∈ ps, ∀ e ∈ st.entries, e.1 ≠ (splitFirstEq q).1) →
      (ps.map (fun q => (splitFirstEq q).1)).Nodup →
      ps.foldl manualStep (some st) =
        some ⟨partsHash st.hash ps, st.entries ++ partsData ps⟩ := by
  intro ps
  induction ps with
  | nil =>
    intro st _ _ _
    simp [partsHash, partsData]
  | cons q ps ih =>
    intro st hdec hdisj hnodup
    rw [List.map_cons] at hnodup
    have hnodup' := (List.nodup_cons.mp hnodup).2
    have hkey := (List.nodup_cons.mp hnodup).1
    by_cases hh : (splitFirstEq q).1 = "hash".data
    · have hstep : manualStep (some st) q = some { st with hash := (splitFirstEq q).2 } := by
        simp [manualStep, hh]
      have hrest := ih { st with hash := (splitFirstEq q).2 }
        (fun x hx => hdec x (List.mem_cons_of_mem _ hx))
        (fun x hx e he => hdisj x (List.mem_cons_of_mem _ hx) e he)
        hnodup'
      calc (q :: ps).foldl manualStep (some st)
          = ps.foldl manualStep (manualStep (some st) q) := rfl
        _ = some ⟨partsHash (splitFirstEq q).2 ps, st.entries ++ partsData ps⟩ := by
            rw [hstep]; exact hrest
        _ = some ⟨partsHash st.hash (q :: ps), st.entries ++ partsData (q :: ps)⟩ := by
            have h1 : partsHash st.hash (q :: ps) = partsHash (splitFirstEq q).2 ps := by
              simp [partsHash, hh]
            have h2 : partsData (q :: ps) = partsData ps := by
              simp [partsData, hh]
            rw [h1, h2]
    · by_cases hs : (splitFirstEq q).1 = "signature".data
      · have hstep : manualStep (some st) q = some st := by
          simp [manualStep, hh, hs]
        have hrest := ih st
          (fun x hx => hdec x (List.mem_cons_of_mem _ hx))
          (fun x hx e he => hdisj x (List.mem_cons_of_mem _ hx) e he)
          hnodup'
        calc (q :: ps).foldl manualStep (some st)
            = ps.foldl manualStep (manualStep (some st) q) := rfl
          _ = some ⟨partsHash st.hash ps, st.entries ++ partsData ps⟩ := by
              rw [hstep]; exact hrest
          _ = some ⟨partsHash st.hash (q :: ps), st.entries ++ partsData (q :: ps)⟩ := by
              have h1 : partsHash st.hash (q :: ps) = partsHash st.hash ps := by
                simp [partsHash, hh]
              have h2 : partsData (q :: ps) = partsData ps := by
                simp [partsData, hh, hs]
              rw [h1, h2]
      · have hins : jsObjInsert st.entries (splitFirstEq q).1 (splitFirstEq q).2 =
            st.entries ++ [((splitFirstEq q).1, (splitFirstEq q).2)] :=
          jsObjInsert_append _ _ _
            (fun e he => hdisj q (List.mem_cons_self _ _) e he)
        have hstep : manualStep (some st) q =
            some { st with entries :=
              st.entries ++ [((splitFirstEq q).1, (splitFirstEq q).2)] } := by
          simp only [manualStep]
          rw [if_neg (by simp [hh]), if_neg (by simp [hs]),
            hdec q (List.mem_cons_self _ _)]
          simp [hins]
        have hrest := ih
          { st with entries := st.entries ++ [((splitFirstEq q).1, (splitFirstEq q).2)] }
          (fun x hx => hdec x (List.mem_cons_of_mem _ hx))
          (fun x hx e he => by
            rcases List.mem_append.mp he with h1 | h1
            · exact hdisj x (List.mem_cons_of_mem _ hx) e h1
            · simp at h1
              rw [h1]
              intro heq
              exact hkey (by rw [heq]; exact List.mem_map.mpr ⟨x, hx, rfl⟩))
          hnodup'
        calc (q :: ps).foldl manualStep (some st)
            = ps.foldl manualStep (manualStep (some st) q) := rfl
          _ = some ⟨partsHash st.hash ps,
                (st.entries ++ [((splitFirstEq q).1, (splitFirstEq q).2)]) ++
                  partsData ps⟩ := by rw [hstep]; exact hrest
          _ = some ⟨partsHash st.hash (q :: ps),
                st.entries ++ partsData (q :: ps)⟩ := by
              have h1 : partsHash st.hash (q :: ps) = partsHash st.hash ps := by
                simp [partsHash, hh]
              have h2 : partsData (q :: ps) =
                  ((splitFirstEq q).1, (splitFirstEq q).2) :: partsData ps := by
                simp [partsData, hh, hs]
              rw [h1, h2, List.append_assoc]
              rfl

theorem partsHash_const :
    ∀ (ps : List (List Char)) (h0 : List Char),
      (∀ q ∈ ps, (splitFirstEq q).1 ≠ "hash".data) → partsHash h0 ps = h0 := by
  intro ps
  induction ps with
  | nil => intro h0 _; rfl
  | cons q ps ih =>
    intro h0 hq
    have hh := hq q (List.mem_cons_self _ _)
    calc partsHash h0 (q :: ps)
        = partsHash h0 ps := by simp [partsHash, hh]
      _ = h0 := ih h0 (fun x hx => hq x (List.mem_cons_of_mem _ hx))

theorem partsHash_eq_get :
    ∀ ps : List (List Char),
      (ps.map (fun q => (splitFirstEq q).1)).Nodup →
      partsHash [] ps = (uspGet (ps.map splitFirstEq) "hash".data).getD [] := by
  intro ps
  induction ps with
  | nil => intro _; rfl
  | cons q ps ih =>
    intro hnodup
    rw [List.map_cons] at hnodup
    have hkey := (List.nodup_cons.mp hnodup).1
    have hnodup' := (List.nodup_cons.mp hnodup).2
    by_cases hh : (splitFirstEq q).1 = "hash".data
    · have hconst : partsHash (splitFirstEq q).2 ps = (splitFirstEq q).2 := by
        apply partsHash_const
        intro x hx heq
        exact hkey (by rw [hh, ← heq]; exact List.mem_map.mpr ⟨x, hx, rfl⟩)
      have hl : partsHash [] (q :: ps) = (splitFirstEq q).2 := by
        simp only [partsHash, List.foldl_cons, hh]
        simpa [partsHash] using hconst
      rw [hl]
      simp only [uspGet, List.map_cons]
      rw [List.find?_cons_of_pos _ (by simp [hh])]
      rfl
    · have hl : partsHash [] (q :: ps) = partsHash [] ps := by
        simp [partsHash, hh]
      rw [hl, ih hnodup']
      simp only [uspGet, List.map_cons]
      rw [List.find?_cons_of_neg _ (by simp [hh])]

theorem find?_eq_of_nodup_keys :
    ∀ (es : List (List Char × List Char)),
      (es.map (fun p => p.1)).Nodup →
      ∀ p ∈ es, es.find? (fun e => e.1 == p.1) = some p := by
  intro es
  induction es with
  | nil => intro _ p hp; simp at hp
  | cons e es ih =>
    intro hnodup p hp
    rw [List.map_cons] at hnodup
    have hkey := (List.nodup_cons.mp hnodup).1
    have hnodup' := (List.nodup_cons.mp hnodup).2
    rcases List.mem_cons.mp hp with he | hpe
    · subst he
      simp [List.find?_cons]
    · have hne : e.1 ≠ p.1 := by
        intro heq
        exact hkey (by rw [heq]; exact List.mem_map.mpr ⟨p, hpe, rfl⟩)
      simp [List.find?_cons, hne]
      exact ih hnodup' p hpe

theorem manualParse_char {t : List Char} (h : TokenOk t) :
    manualParse t = some ⟨rawHash t, dataPairs t⟩ := by
  have hdec : ∀ q ∈ rawParts t,
      decPercentStrict (splitFirstEq q).2 = some (splitFirstEq q).2 :=
    fun q hq => decPercentStrict_id _ (fun c hc => (tokenOk_val_nopct h hq hc).1)
  have hfold := manualFoldl_char (rawParts t) ⟨[], []⟩ hdec
    (by intro q hq e he; simp at he) h.2.2
  show (splitOnCh '&' t).foldl manualStep (some ⟨[], []⟩) = _
  rw [show splitOnCh '&' t = rawParts t from rfl, hfold]
  have h1 : partsHash ([] : List Char) (rawParts t) = rawHash t :=
    partsHash_eq_get (rawParts t) h.2.2
  have h2 : ([] : List (List Char × List Char)) ++ partsData (rawParts t) =
      dataPairs t := by
    simp [partsData, dataPairs, rawPairs]
  rw [show (⟨[], []⟩ : ManualParse).hash = [] from rfl,
    show (⟨[], []⟩ : ManualParse).entries = [] from rfl, h1, h2]

theorem canon_bridge (es : List (List Char × List Char))
    (hnodup : (es.map (fun p => p.1)).Nodup)
    (hsafe : ∀ p ∈ es, ∀ c ∈ p.1, safeChar c = true) :
    (sortJs entryLe es).map toLine =
      (sortJs lcLe (es.map (fun p => p.1))).map
        (fun k => k ++ '=' ::
          (((es.find? (fun p => p.1 == k)).map (fun p => p.2)).getD [])) := by
  have hpermA : (sortJs entryLe es).Perm es := sortJs_perm _ es
  have hsortA := sortJs_sorted entryLe entryLe_total entryLe_trans es
  have hmemA : ∀ p ∈ sortJs entryLe es, p ∈ es := fun p hp => hpermA.mem_iff.mp hp
  have hkeysSorted : ((sortJs entryLe es).map (fun p => p.1)).Pairwise
      (fun a b => lcLe a b = true) := by
    apply List.pairwise_map.mpr
    apply List.Pairwise.imp_of_mem ?_ hsortA
    intro p q hp hq hle
    by_cases hpq : p.1 = q.1
    · rw [hpq]; exact lcLe_refl _
    · have h1 : ∀ c ∈ p.1, 44 < c.toNat :=
        fun c hc => (safeChar_toNat (hsafe p (hmemA p hp) c hc)).1
      have h2 : ∀ c ∈ q.1, 44 < c.toNat :=
        fun c hc => (safeChar_toNat (hsafe q (hmemA q hq) c hc)).1
      have := lcLe_append_comma p.1 q.1 p.2 q.2 h1 h2 hpq
      rw [← this]
      exact hle
  have hpermB : (sortJs lcLe (es.map (fun p => p.1))).Perm
      (es.map (fun p => p.1)) := sortJs_perm _ _
  have hsortB := sortJs_sorted lcLe lcLe_total lcLe_trans (es.map (fun p => p.1))
  have hkeys : (sortJs entryLe es).map (fun p => p.1) =
      sortJs lcLe (es.map (fun p => p.1)) := by
    apply perm_pairwise_eq (fun a b => lcLe a b = true)
    · exact fun a _ b _ hab hba => lcLe_antisymm a b hab hba
    · exact (hpermA.map _).trans hpermB.symm
    · exact hkeysSorted
    · exact hsortB
  rw [← hkeys, List.map_map]
  apply List.map_congr_left
  intro p hp
  have hfind := find?_eq_of_nodup_keys es hnodup p (hmemA p hp)
  simp [Function.comp, hfind, toLine]

theorem tokenOk_spec {t : List Char} (h : TokenOk t) :
    uspEntries t = rawPairs t ∧
    uspHash t = rawHash t ∧
    manualParse t = some ⟨rawHash t, dataPairs t⟩ ∧
    dataCheckStringUsp t = manualCanonOf ⟨rawHash t, dataPairs t⟩ := by
  have he := uspEntries_eq h
  refine ⟨he, ?_, manualParse_char h, ?_⟩
  · show (uspGet (uspEntries t) "hash".data).getD [] = rawHash t
    rw [he]
    rfl
  · have hkeysraw : ((rawPairs t).map (fun p => p.1)).Nodup := by
      have : (rawPairs t).map (fun p => p.1) =
          (rawParts t).map (fun q => (splitFirstEq q).1) := by
        simp [rawPairs, List.map_map, Function.comp]
      rw [this]
      exact h.2.2
    have hsub : (dataPairs t).Sublist (rawPairs t) := List.filter_sublist _
    have hnodup : ((dataPairs t).map (fun p => p.1)).Nodup :=
      List.Nodup.sublist (List.Sublist.map _ hsub) hkeysraw
    have hsafe : ∀ p ∈ dataPairs t, ∀ c ∈ p.1, safeChar c = true := by
      intro p hp c hc
      have hpr : p ∈ rawPairs t := List.Sublist.mem hp hsub
      obtain ⟨q, hq, hsp⟩ := List.mem_map.mp hpr
      exact tokenOk_key_safe h hq (by rw [hsp]; exact hc)
    have hbridge := canon_bridge (dataPairs t) hnodup hsafe
    show joinNL (((sortJs entryLe
      ((uspEntries t).filter
        (fun p => p.1 != "hash".data && p.1 != "signature".data))).map toLine)) =
      manualCanonOf ⟨rawHash t, dataPairs t⟩
    rw [he]
    show joinNL ((sortJs entryLe (dataPairs t)).map toLine) = _
    rw [hbridge]
    rfl

/-- C4 counterexample: on the token `a=1+2&hash=h` the two verifier
implementations compute different canonical data-check strings — the
`URLSearchParams`-based one decodes `+` to a space, the manual
split-and-decode one does not. -/
theorem verifier_variants_differ :
    dataCheckStringManual "a=1+2&hash=h".data ≠
      some (dataCheckStringUsp "a=1+2&hash=h".data) := by
  decide

/-- C4 (amended): on well-formed tokens — URL-safe characters, no empty
`&`-segment, no repeated key — the two verifier implementations compute
the same canonical data-check string and, for every HMAC oracle and
secret, the same boolean verification result. -/
theorem verifiers_agree_on_wellformed (t : List Char) (h : TokenOk t)
    (hmac : List Nat → List Nat → List Nat) (bot : List Char) :
    dataCheckStringManual t = some (dataCheckStringUsp t) ∧
    verifyManual hmac t bot = some (verifyUsp hmac t bot) := by
  obtain ⟨he, hh, hm, hc⟩ := tokenOk_spec h
  constructor
  · show (manualParse t).map manualCanonOf = _
    rw [hm, hc]
    rfl
  · show (manualParse t).map
      (fun st => calcHashHex hmac bot (manualCanonOf st) == st.hash) = _
    rw [hm]
    show some (calcHashHex hmac bot
      (manualCanonOf ⟨rawHash t, dataPairs t⟩) == rawHash t) = _
    rw [← hc, ← hh]
    rfl

theorem verifiers_agree_on_wellformed_witness :
    dataCheckStringManual "user=u7&auth_date=5&hash=abc".data =
      some (dataCheckStringUsp "user=u7&auth_date=5&hash=abc".data) ∧
    verifyManual hmacEcho "user=u7&auth_date=5&hash=abc".data "tok".data =
      some (verifyUsp hmacEcho "user=u7&auth_date=5&hash=abc".data "tok".data) :=
  verifiers_agree_on_wellformed "user=u7&auth_date=5&hash=abc".data
    (by refine ⟨?_, ?_, ?_⟩ <;> decide) hmacEcho "tok".data

/-- The calculated hex hash of the manual verifier (`part_000`), i.e. the
`calcHash` value it compares against the claimed signature; `none` when
parsing throws. -/
def computedHashManual (hmac : List Nat → List Nat → List Nat)
    (initData botToken : List Char) : Option (List Char) :=
  (manualParse initData).map
    (fun st => calcHashHex hmac botToken (manualCanonOf st))

theorem tokenOk_rawKeys_nodup {t : List Char} (h : TokenOk t) :
    ((rawPairs t).map (fun p => p.1)).Nodup := by
  have heq : (rawPairs t).map (fun p => p.1) =
      (rawParts t).map (fun q => (splitFirstEq q).1) := by
    simp [rawPairs, List.map_map, Function.comp]
  rw [heq]
  exact h.2.2

theorem tokenOk_dataKeys_nodup {t : List Char} (h : TokenOk t) :
    ((dataPairs t).map (fun p => p.1)).Nodup :=
  List.Nodup.sublist (List.Sublist.map _ (List.filter_sublist _))
    (tokenOk_rawKeys_nodup h)

theorem tokenOk_dataKeys_safe {t : List Char} (h : TokenOk t) :
    ∀ p ∈ dataPairs t, ∀ c ∈ p.1, safeChar c = true := by
  intro p hp c hc
  have hpr : p ∈ rawPairs t :=
    List.Sublist.mem hp (List.filter_sublist _)
  obtain ⟨q, hq, hsp⟩ := List.mem_map.mp hpr
  exact tokenOk_key_safe h hq (by rw [hsp]; exact hc)

theorem find?_perm_of_nodup_keys (es1 es2 : List (List Char × List Char))
    (hp : es1.Perm es2) (hnodup : (es1.map (fun p => p.1)).Nodup)
    (k : List Char) :
    es1.find? (fun p => p.1 == k) = es2.find? (fun p => p.1 == k) := by
  rcases hf : es1.find? (fun p => p.1 == k) with _ | p
  · rw [hf]
    symm
    apply List.find?_eq_none.mpr
    intro q hq
    exact List.find?_eq_none.mp hf q (hp.mem_iff.mpr hq)
  · have hk : p.1 = k := by
      have hpk := List.find?_some hf
      simpa using hpk
    have hpm : p ∈ es1 := List.mem_of_find?_eq_some hf
    have hnodup2 : (es2.map (fun p => p.1)).Nodup := (hp.map _).nodup hnodup
    have hfind2 := find?_eq_of_nodup_keys es2 hnodup2 p (hp.mem_iff.mp hpm)
    rw [hf, ← hk]
    exact hfind2.symm

/-- C5 counterexample: in the manual variant a duplicate key makes the
computed hash depend on field order — permuting `a=1` and `a=2` changes
the data-check string (last duplicate wins) and hence the calculated
hash. -/
theorem manual_hash_order_dependent :
    computedHashManual hmacEcho "a=1&a=2&hash=h".data "t".data ≠
      computedHashManual hmacEcho "a=2&a=1&hash=h".data "t".data := by
  decide

/-- C5 (amended): for well-formed tokens (URL-safe characters, no empty
segment, no repeated key), permuting the `&`-separated fields before
parsing leaves the canonical data-check string, the computed hash, and
the verification outcome of both verifier variants unchanged. -/
theorem canonicalization_order_independent (t1 t2 : List Char)
    (h1 : TokenOk t1) (h2 : TokenOk t2)
    (hperm : (rawParts t1).Perm (rawParts t2))
    (hmac : List Nat → List Nat → List Nat) (bot : List Char) :
    dataCheckStringUsp t1 = dataCheckStringUsp t2 ∧
    dataCheckStringManual t1 = dataCheckStringManual t2 ∧
    verifyUsp hmac t1 bot = verifyUsp hmac t2 bot ∧
    verifyManual hmac t1 bot = verifyManual hmac t2 bot ∧
    computedHashManual hmac t1 bot = computedHashManual hmac t2 bot := by
  obtain ⟨he1, hh1, hm1, hc1⟩ := tokenOk_spec h1
  obtain ⟨he2, hh2, hm2, hc2⟩ := tokenOk_spec h2
  have hpairs : (rawPairs t1).Perm (rawPairs t2) := hperm.map _
  have hdata : (dataPairs t1).Perm (dataPairs t2) := hpairs.filter _
  have hsorteq : sortJs entryLe (dataPairs t1) = sortJs entryLe (dataPairs t2) := by
    apply perm_pairwise_eq (fun p q => entryLe p q = true)
    · intro p hp q hq hpq hqp
      have hps : entryKeyStr p = entryKeyStr q := lcLe_antisymm _ _ hpq hqp
      have hpm : p ∈ dataPairs t1 := (sortJs_perm _ _).mem_iff.mp hp
      have hqm : q ∈ dataPairs t1 := (sortJs_perm _ _).mem_iff.mp hq
      have hcp : ',' ∉ p.1 := fun hm =>
        (safeChar_ne (tokenOk_dataKeys_safe h1 p hpm _ hm)).2.2.2.2.2 rfl
      have hcq : ',' ∉ q.1 := fun hm =>
        (safeChar_ne (tokenOk_dataKeys_safe h1 q hqm _ hm)).2.2.2.2.2 rfl
      obtain ⟨hk, hv⟩ := append_comma_inj p.1 p.2 q.1 q.2 hcp hcq hps
      exact Prod.ext hk hv
    · exact (sortJs_perm _ _).trans (hdata.trans (sortJs_perm _ _).symm)
    · exact sortJs_sorted entryLe entryLe_total entryLe_trans _
    · exact sortJs_sorted entryLe entryLe_total entryLe_trans _
  have husp2 : dataCheckStringUsp t2 =
      joinNL ((sortJs entryLe (dataPairs t2)).map toLine) := by
    show joinNL ((sortJs entryLe ((uspEntries t2).filter
      (fun p => p.1 != "hash".data && p.1 != "signature".data))).map toLine) = _
    rw [he2]
    rfl
  have husp : dataCheckStringUsp t1 = dataCheckStringUsp t2 := by
    show joinNL ((sortJs entryLe ((uspEntries t1).filter
      (fun p => p.1 != "hash".data && p.1 != "signature".data))).map toLine) = _
    rw [he1]
    show joinNL ((sortJs entryLe (dataPairs t1)).map toLine) = _
    rw [hsorteq]
    exact husp2.symm
  have hhash : rawHash t1 = rawHash t2 := by
    show (uspGet (rawPairs t1) "hash".data).getD [] = _
    show ((( rawPairs t1).find? (fun p => p.1 == "hash".data)).map
      (fun p => p.2)).getD [] = _
    rw [find?_perm_of_nodup_keys _ _ hpairs (tokenOk_rawKeys_nodup h1)]
    rfl
  have hmanualCanon : manualCanonOf ⟨rawHash t1, dataPairs t1⟩ =
      manualCanonOf ⟨rawHash t2, dataPairs t2⟩ := by
    rw [← hc1, ← hc2]
    exact husp
  refine ⟨husp, ?_, ?_, ?_, ?_⟩
  · show (manualParse t1).map manualCanonOf = (manualParse t2).map manualCanonOf
    rw [hm1, hm2]
    simp [hmanualCanon]
  · show (calcHashHex hmac bot (dataCheckStringUsp t1) == uspHash t1) =
      (calcHashHex hmac bot (dataCheckStringUsp t2) == uspHash t2)
    rw [husp, hh1, hh2, hhash]
  · show (manualParse t1).map
      (fun st => calcHashHex hmac bot (manualCanonOf st) == st.hash) =
      (manualParse t2).map
      (fun st => calcHashHex hmac bot (manualCanonOf st) == st.hash)
    rw [hm1, hm2]
    simp only [Option.map_some']
    rw [hmanualCanon, hhash]
  · show (manualParse t1).map
      (fun st => calcHashHex hmac bot (manualCanonOf st)) =
      (manualParse t2).map
      (fun st => calcHashHex hmac bot (manualCanonOf st))
    rw [hm1, hm2]
    simp [hmanualCanon]

theorem canonicalization_order_independent_witness :
    dataCheckStringUsp "b=2&a=1&hash=zz".data =
      dataCheckStringUsp "a=1&hash=zz&b=2".data ∧
    dataCheckStringManual "b=2&a=1&hash=zz".data =
      dataCheckStringManual "a=1&hash=zz&b=2".data ∧
    verifyUsp hmacEcho "b=2&a=1&hash=zz".data "t".data =
      verifyUsp hmacEcho "a=1&hash=zz&b=2".data "t".data ∧
    verifyManual hmacEcho "b=2&a=1&hash=zz".data "t".data =
      verifyManual hmacEcho "a=1&hash=zz&b=2".data "t".data ∧
    computedHashManual hmacEcho "b=2&a=1&hash=zz".data "t".data =
      computedHashManual hmacEcho "a=1&hash=zz&b=2".data "t".data :=
  canonicalization_order_independent "b=2&a=1&hash=zz".data
    "a=1&hash=zz&b=2".data (by refine ⟨?_, ?_, ?_⟩ <;> decide)
    (by refine ⟨?_, ?_, ?_⟩ <;> decide) (by decide) hmacEcho "t".data
